import Mathlib

/-!
Verification development for the `mcp-subregistry` service.

The embedding below models, from the TypeScript source:
  * the relational data model (`src/db/schema.ts`): the `servers`,
    `package_metadata` and `sync_log` tables, represented as lists of rows
    (the `servers` table carries its composite primary key `(name, version)`
    as hypotheses of uniqueness where needed);
  * the reconciliation engine (`src/services/sync.ts`):
    `syncFromOfficialRegistry`, `fetchOfficialMCPRegistry` and
    `transformToSubregistryFormat`;
  * per-record validation (`src/types/registry.ts`): the zod schemas
    `RegistryServerSchema` and `OfficialRegistryServerResponseSchema`,
    embedded as `safeParse` over a structured raw-record type;
  * the read API (`src/routes/registry.ts`): the cursor-paginated
    `GET /servers` list endpoint, the `GET /servers/:name/versions`
    endpoint, and the `toServerJson` metadata composer.

Modelling conventions:
  * arbitrary JSON metadata maps (`Record<string, unknown>`) are embedded
    as association lists `List (String × MVal)` with first-match lookup;
    JavaScript object spread `\x7b...a, ...b\x7d` is embedded as `spread`,
    whose lookup semantics (later layer wins) is proved below;
  * ISO-8601 datetime strings are abstracted as `Int` timestamps (the zod
    `z.iso.datetime()` format check is absorbed into this abstraction);
  * SQLite `ORDER BY` on text columns uses BINARY collation over UTF-8
    bytes, which coincides with Lean's codepoint-lexicographic `String`
    order; a database table is represented by a list of its rows, with an
    explicit sortedness hypothesis standing for `ORDER BY`;
  * deep validation of `packages` / `remotes` / `repository` payloads is
    not modelled field-by-field: those payloads are opaque `MVal` values
    copied verbatim, and record validity is determined by the embedded
    checks on `name`, `description`, `version`, `status` and the required
    wrapper `_meta` entry.
-/

/-- Opaque JSON-like metadata value. All modelled operations treat metadata
values opaquely (copy, overlay, compare); the constructors exist only so
that concrete witnesses can be built and compared decidably. -/
inductive MVal where
  | s (v : String)
  | n (v : Int)
  | b (v : Bool)
  | null
deriving DecidableEq

/-- A JSON object `Record<string, unknown>`, as an association list with
first-match lookup. -/
abbrev Meta := List (String × MVal)

/-- Lookup of a key in a metadata object. -/
def metaLookup (m : Meta) (k : String) : Option MVal :=
  match m.find? (fun p => p.1 == k) with
  | some p => some p.2
  | none => none

/-- JavaScript shallow object spread `\x7b...a, ...b\x7d`: keys of `b`
override keys of `a`; keys only in `a` are kept. -/
def spread (a b : Meta) : Meta :=
  a.filter (fun p => (metaLookup b p.1).isNone) ++ b

/-- Server lifecycle status, `"active" | "deprecated" | "deleted"`. -/
inductive Status where
  | active
  | deprecated
  | deleted
deriving DecidableEq

/-- Local publication gate, `"draft" | "published"`. -/
inductive Visibility where
  | draft
  | published
deriving DecidableEq

/-- Outcome tag of a sync run, `"success" | "failure"`. -/
inductive SyncStatus where
  | success
  | failure
deriving DecidableEq

/-- A row of the `servers` table (`src/db/schema.ts`). The composite
primary key is `(name, version)`. -/
structure ServerRow where
  name : String
  version : String
  description : String
  status : Status
  isLatest : Bool
  repository : Option MVal
  websiteUrl : Option String
  packages : Option MVal
  remotes : Option MVal
  publisherMeta : Meta
  parentRegistryMeta : Meta
  versionRegistryMeta : Meta
  visibility : Visibility
  publishedAt : Int
  source : String
  createdAt : Int
  updatedAt : Int
deriving DecidableEq

/-- A row of the `package_metadata` table (`src/db/schema.ts`), keyed by
`name`. -/
structure PkgRow where
  name : String
  registryMeta : Meta
  visibility : Visibility
  createdAt : Int
  updatedAt : Int
deriving DecidableEq

/-- A row of the `sync_log` table (`src/db/schema.ts`). The autoincrement
`id` column is represented by the row's position in the list. -/
structure SyncLogRow where
  source : String
  status : SyncStatus
  serversProcessed : Nat
  errorMessage : Option String
  syncedAt : Int
deriving DecidableEq

/-- The persistent state touched by a sync run. -/
structure SyncState where
  servers : List ServerRow
  syncLog : List SyncLogRow
deriving DecidableEq

/-- The database state visible to the read API. -/
structure Db where
  servers : List ServerRow
  pkgs : List PkgRow
deriving DecidableEq

/-- The composite primary key of a `servers` row. -/
def rowKey (r : ServerRow) : String × String := (r.name, r.version)

/-- Left-join lookup of the `package_metadata` row for a server name
(`leftJoin(packageMetadata, eq(servers.name, packageMetadata.name))`);
`name` is the primary key of `package_metadata`, so at most one row
matches. -/
def pkgFor (pkgs : List PkgRow) (n : String) : Option PkgRow :=
  pkgs.find? (fun p => p.name == n)

/-- Splitting a character list at every occurrence of a separator, with
JavaScript `String.prototype.split` semantics on a one-character separator
(`"".split(":") = [""]`, `"a:".split(":") = ["a", ""]`, ...). -/
def splitOnChar (sep : Char) : List Char → List (List Char)
  | [] => [[]]
  | c :: rest =>
    let r := splitOnChar sep rest
    if c = sep then [] :: r
    else
      match r with
      | [] => [[c]]
      | h :: t => (c :: h) :: t

/-- Building the pagination cursor from a row, `name:version`
(`src/routes/registry.ts`, the `nextCursor` template string). -/
def encodeCursor (n v : String) : String := n ++ ":" ++ v

/-- The split step of cursor decoding: `decodedCursor.split(":")`
destructured into its first two components. The result is `none` when the
string contains no `:` at all, in which case the JavaScript destructuring
leaves `cursorVersion` undefined and the query builder fails (modelled as
a failed request). The handler's preceding `decodeURIComponent` is
modelled separately below and applied in `listServers`. -/
def decodeCursor (s : String) : Option (String × String) :=
  match splitOnChar ':' s.data with
  | a :: b :: _ => some (⟨a⟩, ⟨b⟩)
  | _ => none

/-- Value of a hexadecimal digit of a percent escape, case-insensitive,
computed on the codepoint (48-57 are `0`-`9`, 65-70 are `A`-`F`, 97-102
are `a`-`f`). -/
def hexDigitVal (c : Char) : Option Nat :=
  let n := c.toNat
  if 48 ≤ n ∧ n ≤ 57 then some (n - 48)
  else if 65 ≤ n ∧ n ≤ 70 then some (n - 55)
  else if 97 ≤ n ∧ n ≤ 102 then some (n - 87)
  else none

/-- One step of the ECMA-262 `Decode` algorithm with an empty reserved
set, i.e. of the percent-escape decoding performed by
`decodeURIComponent`: given the current character and the remaining
input, produce the decoded character and the rest of the input. A `%`
must introduce two hex digits; a first byte below `0x80` yields that
character; a multi-byte leading byte must be followed by the right number
of percent-escaped UTF-8 continuation bytes assembling into a valid
codepoint (not overlong, not a surrogate, at most `0x10FFFF`); any
malformed escape is a thrown `URIError`, modelled as `none`. All other
characters pass through. -/
def percentStep (c : Char) (rest : List Char) : Option (Char × List Char) :=
  if c = '%' then
    match rest with
    | h1 :: h2 :: rest2 =>
      match hexDigitVal h1, hexDigitVal h2 with
      | some a1, some a2 =>
        let b1 := 16 * a1 + a2
        if b1 < 0x80 then some (Char.ofNat b1, rest2)
        else if 0xC0 ≤ b1 ∧ b1 < 0xE0 then
          match rest2 with
          | '%' :: h3 :: h4 :: rest3 =>
            match hexDigitVal h3, hexDigitVal h4 with
            | some a3, some a4 =>
              let b2 := 16 * a3 + a4
              let cp := (b1 - 0xC0) * 0x40 + (b2 - 0x80)
              if 0x80 ≤ b2 ∧ b2 < 0xC0 ∧ 0x80 ≤ cp then
                some (Char.ofNat cp, rest3)
              else none
            | _, _ => none
          | _ => none
        else if 0xE0 ≤ b1 ∧ b1 < 0xF0 then
          match rest2 with
          | '%' :: h3 :: h4 :: '%' :: h5 :: h6 :: rest3 =>
            match hexDigitVal h3, hexDigitVal h4, hexDigitVal h5, hexDigitVal h6 with
            | some a3, some a4, some a5, some a6 =>
              let b2 := 16 * a3 + a4
              let b3 := 16 * a5 + a6
              let cp := (b1 - 0xE0) * 0x1000 + (b2 - 0x80) * 0x40 + (b3 - 0x80)
              if 0x80 ≤ b2 ∧ b2 < 0xC0 ∧ 0x80 ≤ b3 ∧ b3 < 0xC0 ∧ 0x800 ≤ cp ∧
                  (cp < 0xD800 ∨ 0xDFFF < cp) then
                some (Char.ofNat cp, rest3)
              else none
            | _, _, _, _ => none
          | _ => none
        else if 0xF0 ≤ b1 ∧ b1 < 0xF8 then
          match rest2 with
          | '%' :: h3 :: h4 :: '%' :: h5 :: h6 :: '%' :: h7 :: h8 :: rest3 =>
            match hexDigitVal h3, hexDigitVal h4, hexDigitVal h5, hexDigitVal h6,
                hexDigitVal h7, hexDigitVal h8 with
            | some a3, some a4, some a5, some a6, some a7, some a8 =>
              let b2 := 16 * a3 + a4
              let b3 := 16 * a5 + a6
              let b4 := 16 * a7 + a8
              let cp := (b1 - 0xF0) * 0x40000 + (b2 - 0x80) * 0x1000 +
                (b3 - 0x80) * 0x40 + (b4 - 0x80)
              if 0x80 ≤ b2 ∧ b2 < 0xC0 ∧ 0x80 ≤ b3 ∧ b3 < 0xC0 ∧ 0x80 ≤ b4 ∧
                  b4 < 0xC0 ∧ 0x10000 ≤ cp ∧ cp ≤ 0x10FFFF then
                some (Char.ofNat cp, rest3)
              else none
            | _, _, _, _, _, _ => none
          | _ => none
        else none
      | _, _ => none
    | _ => none
  else some (c, rest)

/-- Iterating `percentStep` over the whole input. Every step consumes at
least the current character, so fuel equal to the input length is always
sufficient and the out-of-fuel arm is unreachable from `percentDecode`. -/
def percentDecodeAux : Nat → List Char → Option (List Char)
  | _, [] => some []
  | 0, _ :: _ => none
  | fuel + 1, c :: rest =>
    match percentStep c rest with
    | none => none
    | some (ch, rest2) => (percentDecodeAux fuel rest2).map (ch :: ·)

/-- Percent-escape decoding of a whole character list, `none` modelling a
thrown `URIError`. -/
def percentDecode (l : List Char) : Option (List Char) :=
  percentDecodeAux l.length l

/-- `decodeURIComponent(cursor)`, run by the list handler before the
`split(":")`; `none` models a thrown `URIError`, which the route's
`try/catch` turns into a 500 response. -/
def decodeURIComponent (s : String) : Option String :=
  (percentDecode s.data).map (fun l => ⟨l⟩)

/-- Character class `[a-zA-Z0-9.-]` of the first segment of the server
name pattern in `RegistryServerSchema`. -/
def nameChar1 (c : Char) : Bool :=
  c.isAlpha || c.isDigit || c == '.' || c == '-'

/-- Character class `[a-zA-Z0-9._-]` of the second segment of the server
name pattern in `RegistryServerSchema`. -/
def nameChar2 (c : Char) : Bool :=
  c.isAlpha || c.isDigit || c == '.' || c == '_' || c == '-'

/-- The `name` validation of `RegistryServerSchema`:
`z.string().min(3).max(200).regex(/^[a-zA-Z0-9.-]+\/[a-zA-Z0-9._-]+$/)`. -/
def nameOk (s : String) : Bool :=
  decide (3 ≤ s.length) && decide (s.length ≤ 200) &&
    match splitOnChar '/' s.data with
    | [a, b] => !a.isEmpty && !b.isEmpty && a.all nameChar1 && b.all nameChar2
    | _ => false

/-- Raw JSON shape of the `server` object of an upstream record, before
validation: every field may be absent or (for `status`) outside its enum. -/
structure RawServerInner where
  name : Option String
  description : Option String
  version : Option String
  status : Option String
  repository : Option MVal
  websiteUrl : Option String
  packages : Option MVal
  remotes : Option MVal
  meta : Option Meta
deriving DecidableEq

/-- Raw JSON shape of the required
`"io.modelcontextprotocol.registry/official"` entry of the wrapper `_meta`
object, before validation. -/
structure RawOfficialMeta where
  status : Option String
  publishedAt : Option Int
  updatedAt : Option Int
  isLatest : Option Bool
deriving DecidableEq

/-- Raw JSON shape of the wrapper `_meta` object: the (possibly absent)
official entry, plus the full passthrough map that `z.looseObject` keeps
(`all` is what `\x7b...officialServerRegistryMeta\x7d` copies). -/
structure RawWrapperMeta where
  official : Option RawOfficialMeta
  all : Meta
deriving DecidableEq

/-- A raw record of one upstream page entry, before validation. -/
structure RawRecord where
  server : Option RawServerInner
  meta : Option RawWrapperMeta
deriving DecidableEq

/-- Enum membership check of `z.enum(["active", "deprecated", "deleted"])`. -/
def parseStatus : String → Option Status
  | "active" => some .active
  | "deprecated" => some .deprecated
  | "deleted" => some .deleted
  | _ => none

/-- The `server` object after a successful `RegistryServerSchema` parse. -/
structure ValidServer where
  name : String
  description : String
  version : String
  status : Option Status
  repository : Option MVal
  websiteUrl : Option String
  packages : Option MVal
  remotes : Option MVal
  meta : Option Meta
deriving DecidableEq

/-- The official wrapper-metadata entry after a successful parse. -/
structure OfficialMeta where
  status : Status
  publishedAt : Int
  updatedAt : Int
  isLatest : Bool
deriving DecidableEq

/-- An upstream record after a successful
`OfficialRegistryServerResponseSchema` parse. -/
structure ValidRecord where
  server : ValidServer
  official : OfficialMeta
  metaAll : Meta
deriving DecidableEq

/-- The `RegistryServerSchema` checks on the `server` object: `name`
pattern and length bounds, `description` length in `[1, 100]`, `version`
length at most 255, `status` in its enum when present. -/
def parseServerInner (s : RawServerInner) : Option ValidServer :=
  match s.name, s.description, s.version with
  | some name, some description, some version =>
    if nameOk name && decide (1 ≤ description.length) &&
        decide (description.length ≤ 100) && decide (version.length ≤ 255) then
      match s.status with
      | none =>
        some ⟨name, description, version, none, s.repository, s.websiteUrl,
          s.packages, s.remotes, s.meta⟩
      | some str =>
        (parseStatus str).map (fun st =>
          ⟨name, description, version, some st, s.repository, s.websiteUrl,
            s.packages, s.remotes, s.meta⟩)
    else none
  | _, _, _ => none

/-- The checks on the required official wrapper-metadata entry: all four
fields present, `status` in its enum. -/
def parseOfficial (m : RawOfficialMeta) : Option OfficialMeta :=
  match m.status, m.publishedAt, m.updatedAt, m.isLatest with
  | some st, some p, some u, some il => (parseStatus st).map (fun s => ⟨s, p, u, il⟩)
  | _, _, _, _ => none

/-- `OfficialRegistryServerResponseSchema.safeParse` on one raw record:
both the `server` object and the wrapper `_meta` with its official entry
must parse. -/
def safeParse (r : RawRecord) : Option ValidRecord :=
  match r.server, r.meta with
  | some s, some m =>
    match m.official with
    | none => none
    | some off =>
      match parseServerInner s, parseOfficial off with
      | some vs, some vo => some ⟨vs, vo, m.all⟩
      | _, _ => none
  | _, _ => none

/-- The insert payload produced by `transformToSubregistryFormat`
(`NewServer` in the source): everything of a `servers` row except
`visibility`, `createdAt` and `updatedAt`, which the insert leaves to
column defaults. -/
structure NewServerRec where
  name : String
  version : String
  description : String
  status : Status
  isLatest : Bool
  repository : Option MVal
  websiteUrl : Option String
  packages : Option MVal
  remotes : Option MVal
  publisherMeta : Meta
  parentRegistryMeta : Meta
  versionRegistryMeta : Meta
  publishedAt : Int
  source : String
deriving DecidableEq

/-- `transformToSubregistryFormat` (`src/services/sync.ts`): maps a parsed
upstream record to the subregistry row shape. The JavaScript `||` defaults
are embedded faithfully: absent `status` becomes `active`, an empty
`version` string becomes `"1.0.0"`, a falsy `websiteUrl` becomes null, and
absent `_meta` spreads to the empty object. -/
def transformToSubregistryFormat (r : ValidRecord) : NewServerRec where
  publishedAt := r.official.publishedAt
  isLatest := r.official.isLatest
  source := "official-registry"
  name := r.server.name
  description := r.server.description
  status := r.server.status.getD .active
  version := if r.server.version = "" then "1.0.0" else r.server.version
  repository := r.server.repository
  websiteUrl :=
    match r.server.websiteUrl with
    | some u => if u = "" then none else some u
    | none => none
  packages := r.server.packages
  remotes := r.server.remotes
  publisherMeta := r.server.meta.getD []
  parentRegistryMeta := r.metaAll
  versionRegistryMeta := []

/-- Whether a stored row has the conflict-target key `(name, version)` of
an insert payload. -/
def rowMatchesKey (t : NewServerRec) (r : ServerRow) : Bool :=
  r.name == t.name && r.version == t.version

/-- The `onConflictDoUpdate` set clause of the sync upsert: every
upstream-owned column is overwritten from the fetched payload,
`versionRegistryMeta` and `visibility` are re-assigned their own current
column value (left untouched), and `updatedAt` is set to the current
time. `createdAt` is not in the set clause and keeps its value. -/
def applyUpsertUpdate (now : Int) (t : NewServerRec) (r : ServerRow) : ServerRow :=
  { r with
    name := t.name
    version := t.version
    description := t.description
    status := t.status
    isLatest := t.isLatest
    repository := t.repository
    websiteUrl := t.websiteUrl
    packages := t.packages
    remotes := t.remotes
    publisherMeta := t.publisherMeta
    parentRegistryMeta := t.parentRegistryMeta
    publishedAt := t.publishedAt
    source := t.source
    updatedAt := now }

/-- The insert branch of the sync upsert: all payload fields verbatim
(including the empty `versionRegistryMeta` set by the transform), with the
column defaults `visibility = draft` and `createdAt`/`updatedAt` set to
the current time by `$defaultFn`. -/
def insertRow (now : Int) (t : NewServerRec) : ServerRow where
  name := t.name
  version := t.version
  description := t.description
  status := t.status
  isLatest := t.isLatest
  repository := t.repository
  websiteUrl := t.websiteUrl
  packages := t.packages
  remotes := t.remotes
  publisherMeta := t.publisherMeta
  parentRegistryMeta := t.parentRegistryMeta
  versionRegistryMeta := t.versionRegistryMeta
  visibility := .draft
  publishedAt := t.publishedAt
  source := t.source
  createdAt := now
  updatedAt := now

/-- One `db.insert(servers).values(t).onConflictDoUpdate(...)` statement:
update in place when a row with the conflict-target key exists, append a
fresh row otherwise. -/
def upsertServer (now : Int) (t : NewServerRec) (rows : List ServerRow) : List ServerRow :=
  if rows.any (rowMatchesKey t) then
    rows.map (fun r => if rowMatchesKey t r then applyUpsertUpdate now t r else r)
  else rows ++ [insertRow now t]

/-- The batch of per-record upserts of one sync run, applied in fetch
order. -/
def syncUpserts (now : Int) (ts : List NewServerRec) (rows : List ServerRow) : List ServerRow :=
  ts.foldl (fun acc t => upsertServer now t acc) rows

/-- One upstream page response observed by the fetch loop: either a JSON
body (the raw records and the `metadata.nextCursor`) or a transport-level
failure (network error or non-2xx response, which the source turns into a
thrown `Error`). -/
inductive PageResponse where
  | ok (raws : List RawRecord) (nextCursor : Option String)
  | httpError (message : String)
deriving DecidableEq

/-- The `do ... while (cursor)` pagination loop of
`fetchOfficialMCPRegistry`: pages are consumed in order; each page's raw
records are validated one by one with `safeParse`, invalid records are
skipped (pushed to `failedServers` and logged, not collected), and the
loop continues while `metadata.nextCursor` is set. A transport failure is
a thrown error. -/
def fetchLoop : List PageResponse → List ValidRecord → Except String (List ValidRecord)
  | [], _ => .error "Failed to fetch from official registry"
  | .httpError msg :: _, _ =>
    .error ("Failed to fetch from official registry: " ++ msg)
  | .ok raws next :: rest, acc =>
    let valids := raws.filterMap safeParse
    match next with
    | none => .ok (acc ++ valids)
    | some _ => fetchLoop rest (acc ++ valids)

/-- `fetchOfficialMCPRegistry` (`src/services/sync.ts`): runs the
pagination loop inside a `try/catch` whose catch branch logs the error and
returns the empty list, so transport failures are swallowed here and never
reach the caller. -/
def fetchOfficialMCPRegistry (pages : List PageResponse) : List ValidRecord :=
  match fetchLoop pages [] with
  | .ok l => l
  | .error _ => []

/-- The outcome envelope returned by `syncFromOfficialRegistry`. -/
structure SyncResult where
  success : Bool
  processed : Nat
  error : Option String
deriving DecidableEq

/-- `syncFromOfficialRegistry` (`src/services/sync.ts`): fetches upstream
records (the watermark read from `sync_log` only influences which records
upstream serves, which is captured by the `pages` argument), transforms
them, upserts each one, and appends a success `sync_log` row whose
`serversProcessed` is the number of upserts, all in one batch. The outer
`catch` branch (one failure `sync_log` row) is reachable only on storage
errors, which the pure store cannot raise, and on fetch errors only if the
fetch rethrew - which `fetchOfficialMCPRegistry` never does. -/
def syncFromOfficialRegistry (now : Int) (pages : List PageResponse)
    (st : SyncState) : SyncResult × SyncState :=
  let officialServers := fetchOfficialMCPRegistry pages
  let transformed := officialServers.map transformToSubregistryFormat
  let logRow : SyncLogRow :=
    { source := "official-registry"
      status := .success
      serversProcessed := transformed.length
      errorMessage := none
      syncedAt := now }
  ({ success := true, processed := transformed.length, error := none },
   { servers := syncUpserts now transformed st.servers
     syncLog := st.syncLog ++ [logRow] })

/-- Strict lexicographic order on `(name, version)` keys, the pagination
total order (`ORDER BY name ASC, version ASC` with distinct composite
keys). -/
def keyLt (a b : String × String) : Prop :=
  a.1 < b.1 ∨ (a.1 = b.1 ∧ a.2 < b.2)

instance (a b : String × String) : Decidable (keyLt a b) :=
  decidable_of_iff (a.1.data < b.1.data ∨ (a.1 = b.1 ∧ a.2.data < b.2.data))
    (by
      unfold keyLt
      constructor
      · rintro (h | ⟨h1, h2⟩)
        · exact Or.inl (String.lt_iff_toList_lt.mpr h)
        · exact Or.inr ⟨h1, String.lt_iff_toList_lt.mpr h2⟩
      · rintro (h | ⟨h1, h2⟩)
        · exact Or.inl (String.lt_iff_toList_lt.mp h)
        · exact Or.inr ⟨h1, String.lt_iff_toList_lt.mp h2⟩)

/-- The cursor predicate of the list endpoint:
`or(gt(servers.name, cursorName), and(eq(servers.name, cursorName),
gt(servers.version, cursorVersion)))`. SQLite compares text columns
bytewise (BINARY collation), which on UTF-8 is the codepoint-lexicographic
order; the comparison is written on the underlying character lists, which
is definitionally the `String` order. -/
def afterCursor (c : String × String) (r : ServerRow) : Bool :=
  decide (c.1.data < r.name.data) ||
    (r.name == c.1 && decide (c.2.data < r.version.data))

/-- The optional query filters of the list endpoint. -/
structure ListFilter where
  visibility : Option Visibility
  status : Option Status
deriving DecidableEq

/-- The visibility condition of the list endpoint:
`and(or(eq(packageMetadata.visibility, v), v = draft ?
isNull(packageMetadata.visibility) : undefined), eq(servers.visibility,
v))`. A left join with no matching `package_metadata` row yields SQL NULL,
on which `eq` is not satisfied and `isNull` is. -/
def visibilityCond (v : Visibility) (r : ServerRow) (pkg : Option PkgRow) : Bool :=
  ((match pkg with
    | some p => p.visibility == v
    | none => false) ||
   (v == .draft && pkg.isNone)) &&
  r.visibility == v

/-- The conjunction of the optional visibility and status filters of the
list endpoint, evaluated on a server row joined with its package row. -/
def filterCond (f : ListFilter) (r : ServerRow) (pkg : Option PkgRow) : Bool :=
  (match f.visibility with
   | some v => visibilityCond v r pkg
   | none => true) &&
  (match f.status with
   | some s => r.status == s
   | none => true)

/-- The full WHERE predicate of the list endpoint: filters plus the
optional cursor condition. -/
def listCond (db : Db) (f : ListFilter) (cursor : Option (String × String))
    (r : ServerRow) : Bool :=
  filterCond f r (pkgFor db.pkgs r.name) &&
  (match cursor with
   | some c => afterCursor c r
   | none => true)

/-- The JSON body of a successful list response: the page rows,
`metadata.count` and `metadata.nextCursor`. -/
structure ListResponse where
  rows : List ServerRow
  count : Nat
  nextCursor : Option String
deriving DecidableEq

/-- The core of the `GET /servers` handler, after cursor decoding: filter,
order by `(name, version)` ascending (db.servers is the table in that
canonical order), fetch `limit + 1` rows, return the first `limit` and
build `nextCursor` from the last returned row when an extra row exists. -/
def listPage (db : Db) (f : ListFilter) (cursor : Option (String × String))
    (limitNum : Nat) : ListResponse :=
  let results := (db.servers.filter (listCond db f cursor)).take (limitNum + 1)
  let hasMore : Bool := limitNum < results.length
  let rowsToReturn := if hasMore then results.take limitNum else results
  let nextCursor :=
    if hasMore then
      match rowsToReturn.getLast? with
      | some last => some (encodeCursor last.name last.version)
      | none => none
    else none
  ⟨rowsToReturn, rowsToReturn.length, nextCursor⟩

/-- The `GET /servers` handler: when a cursor is present, run
`decodeURIComponent` on it (a `URIError` is caught and answered as a 500,
modelled as `none`), split the decoded string on `:`, then run the page
query. A decoded cursor without `:` leaves the destructured
`cursorVersion` undefined and the request fails (`none`). -/
def listServers (db : Db) (f : ListFilter) (cursor : Option String)
    (limit : Nat) : Option ListResponse :=
  match cursor with
  | none => some (listPage db f none limit)
  | some cs =>
    match decodeURIComponent cs with
    | none => none
    | some ds => (decodeCursor ds).map (fun c => listPage db f (some c) limit)

/-- Repeatedly calling the list endpoint, feeding each response's
`nextCursor` into the next call, and concatenating the returned pages.
`fuel` bounds the number of round trips; `none` means the fuel ran out or
a request failed. -/
def paginate (db : Db) (f : ListFilter) (limit : Nat) :
    Nat → Option String → Option (List ServerRow)
  | 0, _ => none
  | fuel + 1, cursor =>
    match listServers db f cursor limit with
    | none => none
    | some resp =>
      match resp.nextCursor with
      | none => some resp.rows
      | some nc => (paginate db f limit fuel (some nc)).map (resp.rows ++ ·)

/-- Descending-`publishedAt` insertion of a row into an already sorted
list; stands for the SQL `ORDER BY published_at DESC`. -/
def insertByPublishedDesc (r : ServerRow) : List ServerRow → List ServerRow
  | [] => [r]
  | x :: xs =>
    if x.publishedAt < r.publishedAt then r :: x :: xs
    else x :: insertByPublishedDesc r xs

/-- Sorting rows by `publishedAt` descending (`orderBy(desc(servers.publishedAt))`). -/
def sortByPublishedDesc : List ServerRow → List ServerRow
  | [] => []
  | x :: xs => insertByPublishedDesc x (sortByPublishedDesc xs)

/-- The WHERE predicate of the `GET /servers/:name/versions` handler:
exact name match plus the same optional visibility and status filters as
the list endpoint. -/
def versionsCond (db : Db) (n : String) (f : ListFilter) (r : ServerRow) : Bool :=
  r.name == n && filterCond f r (pkgFor db.pkgs r.name)

/-- The `GET /servers/:name/versions` handler: all rows with the given
name passing the filters, ordered by `publishedAt` descending; `none`
models the 404 response returned when no row matches. -/
def getVersions (db : Db) (n : String) (f : ListFilter) : Option (List ServerRow) :=
  let results := sortByPublishedDesc (db.servers.filter (versionsCond db n f))
  if results.isEmpty then none else some results

/-- The wrapper-level `_meta` object built by `toServerJson`:
`\x7b...server.parentRegistryMeta, ...pkgMeta?.registryMeta,
...server.versionRegistryMeta\x7d`; spreading an undefined
`pkgMeta?.registryMeta` contributes nothing. -/
def composedRegistryMeta (r : ServerRow) (pkg : Option PkgRow) : Meta :=
  spread
    (spread r.parentRegistryMeta
      (match pkg with
       | some p => p.registryMeta
       | none => []))
    r.versionRegistryMeta


/-! ### Concrete fixtures used by witnesses and counterexamples -/

/-- A sample stored server row carrying local enrichments (non-empty
`versionRegistryMeta`, `published` visibility). -/
def sampleRow : ServerRow where
  name := "com.example/srv"
  version := "1.0.0"
  description := "old description"
  status := .deprecated
  isLatest := false
  repository := none
  websiteUrl := none
  packages := none
  remotes := none
  publisherMeta := []
  parentRegistryMeta := [("old", MVal.s "upstream")]
  versionRegistryMeta := [("curated", MVal.s "keep me")]
  visibility := .published
  publishedAt := 3
  source := "official-registry"
  createdAt := 1
  updatedAt := 1

/-- A sample freshly fetched payload for the same `(name, version)` key as
`sampleRow`. -/
def sampleNew : NewServerRec where
  name := "com.example/srv"
  version := "1.0.0"
  description := "new description"
  status := .active
  isLatest := true
  repository := none
  websiteUrl := some "https://example.com"
  packages := none
  remotes := none
  publisherMeta := [("pub", MVal.b true)]
  parentRegistryMeta := [("fresh", MVal.s "upstream")]
  versionRegistryMeta := []
  publishedAt := 10
  source := "official-registry"

/-- A helper to build small stored rows for read-API fixtures. -/
def mkRow (n v : String) (p : Int) (vis : Visibility) : ServerRow where
  name := n
  version := v
  description := "d"
  status := .active
  isLatest := false
  repository := none
  websiteUrl := none
  packages := none
  remotes := none
  publisherMeta := []
  parentRegistryMeta := []
  versionRegistryMeta := []
  visibility := vis
  publishedAt := p
  source := "official-registry"
  createdAt := 0
  updatedAt := 0

/-- A sample database: three rows in `(name, version)` order, with a
package-metadata row only for `com.example/srv`. -/
def sampleDb : Db where
  servers :=
    [mkRow "com.example/srv" "1.0.0" 1 .published,
     mkRow "com.example/srv" "2.0.0" 2 .published,
     mkRow "org.demo/other" "1.0.0" 3 .published]
  pkgs := [{ name := "com.example/srv", registryMeta := [], visibility := .published,
             createdAt := 0, updatedAt := 0 }]

/-- A database whose stored versions contain `:`; names and rows are
otherwise ordinary and in `(name, version)` order. -/
def colonDb : Db where
  servers :=
    [mkRow "com.example/srv" "1:0" 1 .draft,
     mkRow "com.example/srv" "1:1" 2 .draft]
  pkgs := []

/-- A structurally valid raw upstream record. -/
def sampleRawValid : RawRecord where
  server := some
    { name := some "com.example/srv"
      description := some "a server"
      version := some "1.0.0"
      status := none
      repository := none
      websiteUrl := none
      packages := none
      remotes := none
      meta := none }
  meta := some
    { official := some
        { status := some "active", publishedAt := some 5, updatedAt := some 6,
          isLatest := some true }
      all := [("io.modelcontextprotocol.registry/official", MVal.null)] }

/-- A structurally invalid raw upstream record (no `server` object at
all). -/
def sampleRawInvalid : RawRecord where
  server := none
  meta := none

/-- A page of ten raw records, nine valid and one invalid in the middle. -/
def samplePage : List RawRecord :=
  List.replicate 4 sampleRawValid ++ [sampleRawInvalid] ++ List.replicate 5 sampleRawValid

/-! ### Metadata overlay lemmas -/

theorem metaLookup_nil (k : String) : metaLookup [] k = none := rfl

theorem metaLookup_cons (x : String × MVal) (l : Meta) (k : String) :
    metaLookup (x :: l) k = if x.1 == k then some x.2 else metaLookup l k := by
  simp only [metaLookup, List.find?]
  cases h : (x.1 == k) <;> simp [h]

theorem metaLookup_append (l₁ l₂ : Meta) (k : String) :
    metaLookup (l₁ ++ l₂) k = (metaLookup l₁ k).or (metaLookup l₂ k) := by
  simp only [metaLookup, List.find?_append]
  cases List.find? (fun p => p.1 == k) l₁ <;> simp [Option.or]

theorem metaLookup_eq_none_iff (m : Meta) (k : String) :
    metaLookup m k = none ↔ ∀ p ∈ m, p.1 ≠ k := by
  simp only [metaLookup]
  cases h : List.find? (fun p => p.1 == k) m with
  | some p =>
    simp only [reduceCtorEq, false_iff, not_forall]
    have := List.find?_some h
    exact ⟨p, List.mem_of_find?_eq_some h, by simpa using this⟩
  | none =>
    rw [List.find?_eq_none] at h
    simpa using h

theorem metaLookup_filter_of_none (a b : Meta) (k : String)
    (hb : metaLookup b k = none) :
    metaLookup (a.filter (fun p => (metaLookup b p.1).isNone)) k = metaLookup a k := by
  induction a with
  | nil => rfl
  | cons x xs ih =>
    by_cases hpx : (metaLookup b x.1).isNone = true
    · rw [show List.filter (fun p => (metaLookup b p.1).isNone) (x :: xs) =
          x :: List.filter (fun p => (metaLookup b p.1).isNone) xs from
          List.filter_cons_of_pos hpx,
        metaLookup_cons, metaLookup_cons, ih]
    · rw [show List.filter (fun p => (metaLookup b p.1).isNone) (x :: xs) =
          List.filter (fun p => (metaLookup b p.1).isNone) xs from
          List.filter_cons_of_neg (by simpa using hpx),
        metaLookup_cons, ih]
      have hxk : ¬ (x.1 == k) = true := by
        intro hk
        rw [show x.1 = k by simpa using hk, hb] at hpx
        simp at hpx
      rw [if_neg hxk]

/-- Lookup in a spread: a binding of the second (later) object wins; keys
absent from it fall through to the first object. -/
theorem metaLookup_spread (a b : Meta) (k : String) :
    metaLookup (spread a b) k = (metaLookup b k).or (metaLookup a k) := by
  unfold spread
  rw [metaLookup_append]
  cases hb : metaLookup b k with
  | some v =>
    have hfil : metaLookup (a.filter (fun p => (metaLookup b p.1).isNone)) k = none := by
      rw [metaLookup_eq_none_iff]
      intro p hp hk
      rw [List.mem_filter] at hp
      rw [hk, hb] at hp
      simp at hp
    rw [hfil]
    simp [Option.or]
  | none =>
    rw [metaLookup_filter_of_none a b k hb]
    cases metaLookup a k <;> simp [Option.or]

/-- C6. For every server row and optional package-enrichment row, the
wrapper-level `_meta` of the composed response is the shallow overlay
`parentRegistryMeta`, then the enrichment's `registryMeta`, then
`versionRegistryMeta`: for every key, a version-level binding wins over a
package-level binding, which wins over the upstream binding. -/
theorem composedRegistryMeta_overlay (r : ServerRow) (pkg : Option PkgRow) (k : String) :
    metaLookup (composedRegistryMeta r pkg) k =
      ((metaLookup r.versionRegistryMeta k).or
        (metaLookup (match pkg with
          | some p => p.registryMeta
          | none => []) k)).or
      (metaLookup r.parentRegistryMeta k) := by
  unfold composedRegistryMeta
  rw [metaLookup_spread, metaLookup_spread]
  cases metaLookup r.versionRegistryMeta k <;>
    cases metaLookup (match pkg with
      | some p => p.registryMeta
      | none => []) k <;>
    simp [Option.or]

/-! ### Upsert lemmas -/

/-- Point lookup of a server row by its composite primary key. -/
def findRow (rows : List ServerRow) (n v : String) : Option ServerRow :=
  rows.find? (fun r => r.name == n && r.version == v)

theorem applyUpsertUpdate_matches (now : Int) (t : NewServerRec) (r : ServerRow) :
    rowMatchesKey t (applyUpsertUpdate now t r) = true := by
  simp [rowMatchesKey, applyUpsertUpdate]

theorem rowMatchesKey_iff (t : NewServerRec) (r : ServerRow) :
    rowMatchesKey t r = true ↔ r.name = t.name ∧ r.version = t.version := by
  simp [rowMatchesKey]

/-- Upserting a record whose key differs from `(n, v)` does not change the
lookup at `(n, v)`. -/
theorem findRow_upsert_other (now : Int) (t : NewServerRec) (rows : List ServerRow)
    (n v : String) (hne : ¬(t.name = n ∧ t.version = v)) :
    findRow (upsertServer now t rows) n v = findRow rows n v := by
  have hpred : ∀ r : ServerRow, rowMatchesKey t r = true →
      (r.name == n && r.version == v) = false := by
    intro r hm
    rw [rowMatchesKey_iff] at hm
    by_contra hb
    have : r.name = n ∧ r.version = v := by
      rcases Bool.not_eq_false _ ▸ hb with h
      simpa using (by exact of_decide_eq_true (by simpa using h) : _)
    exact hne ⟨hm.1 ▸ this.1, hm.2 ▸ this.2⟩
  unfold upsertServer
  by_cases hany : rows.any (rowMatchesKey t) = true
  · rw [if_pos hany]
    clear hany
    unfold findRow
    induction rows with
    | nil => rfl
    | cons x xs ih =>
      simp only [List.map_cons, List.find?]
      by_cases hmx : rowMatchesKey t x = true
      · rw [if_pos hmx]
        have hold : (x.name == n && x.version == v) = false := by
          apply hpred x hmx
        have hnew : ((applyUpsertUpdate now t x).name == n &&
            (applyUpsertUpdate now t x).version == v) = false := by
          apply hpred _ (applyUpsertUpdate_matches now t x)
        rw [hold, hnew]
        exact ih
      · rw [if_neg hmx]
        cases hx : (x.name == n && x.version == v) with
        | true => rfl
        | false => exact ih
  · rw [if_neg hany]
    unfold findRow
    rw [List.find?_append]
    have : List.find? (fun r => r.name == n && r.version == v) [insertRow now t] = none := by
      simp only [List.find?]
      have : rowMatchesKey t (insertRow now t) = true := by
        simp [rowMatchesKey, insertRow]
      rw [hpred _ this]
    rw [this]
    cases List.find? (fun r => r.name == n && r.version == v) rows <;> simp [Option.or]

/-- Upserting a record whose key is present updates exactly the stored row
with that key, by the `onConflictDoUpdate` set clause. -/
theorem findRow_upsert_hit (now : Int) (t : NewServerRec) (rows : List ServerRow)
    (r : ServerRow) (hfind : findRow rows t.name t.version = some r) :
    findRow (upsertServer now t rows) t.name t.version =
      some (applyUpsertUpdate now t r) := by
  have hmem : rowMatchesKey t r = true ∧ r ∈ rows := by
    unfold findRow at hfind
    refine ⟨?_, List.mem_of_find?_eq_some hfind⟩
    have := List.find?_some hfind
    simpa [rowMatchesKey] using this
  have hany : rows.any (rowMatchesKey t) = true := by
    rw [List.any_eq_true]
    exact ⟨r, hmem.2, hmem.1⟩
  unfold upsertServer
  rw [if_pos hany]
  clear hany hmem
  unfold findRow at hfind ⊢
  induction rows with
  | nil => simp at hfind
  | cons x xs ih =>
    simp only [List.map_cons, List.find?] at hfind ⊢
    by_cases hmx : rowMatchesKey t x = true
    · rw [if_pos hmx]
      have hx : (x.name == t.name && x.version == t.version) = true := by
        simpa [rowMatchesKey] using hmx
      rw [hx] at hfind
      have hx' : ((applyUpsertUpdate now t x).name == t.name &&
          (applyUpsertUpdate now t x).version == t.version) = true := by
        simpa [rowMatchesKey] using applyUpsertUpdate_matches now t x
      rw [hx']
      simp only [Option.some.injEq] at hfind
      rw [hfind]
    · rw [if_neg hmx]
      have hx : (x.name == t.name && x.version == t.version) = false := by
        simpa [rowMatchesKey] using hmx
      rw [hx] at hfind ⊢
      exact ih hfind


/-- A fold of upserts whose payload keys all differ from `(n, v)` does not
change the lookup at `(n, v)`. -/
theorem findRow_syncUpserts_other (now : Int) (ts : List NewServerRec)
    (rows : List ServerRow) (n v : String)
    (h : ∀ t ∈ ts, ¬(t.name = n ∧ t.version = v)) :
    findRow (syncUpserts now ts rows) n v = findRow rows n v := by
  induction ts generalizing rows with
  | nil => rfl
  | cons t ts ih =>
    unfold syncUpserts
    simp only [List.foldl_cons]
    rw [show List.foldl (fun acc u => upsertServer now u acc) (upsertServer now t rows) ts =
        syncUpserts now ts (upsertServer now t rows) from rfl]
    rw [ih (upsertServer now t rows) (fun u hu => h u (List.mem_cons_of_mem t hu))]
    exact findRow_upsert_other now t rows n v (h t (List.mem_cons_self t ts))

/-- A stored row is the result of looking up its own key when the table's
keys are duplicate-free. -/
theorem findRow_of_mem (rows : List ServerRow) (r : ServerRow)
    (hnodup : (rows.map rowKey).Nodup) (hr : r ∈ rows) :
    findRow rows r.name r.version = some r := by
  induction rows with
  | nil => cases hr
  | cons x xs ih =>
    unfold findRow
    simp only [List.find?]
    rw [List.map_cons, List.nodup_cons] at hnodup
    rcases List.mem_cons.mp hr with h | h
    · subst h
      simp
    · have hne : (x.name == r.name && x.version == r.version) = false := by
        by_contra hb
        have hx := Bool.not_eq_false _ ▸ hb
        have hx1 : x.name = r.name := of_decide_eq_true (Bool.and_elim_left hx)
        have hx2 : x.version = r.version := of_decide_eq_true (Bool.and_elim_right hx)
        exact hnodup.1 (by
          rw [show rowKey x = rowKey r from Prod.ext hx1 hx2]
          exact List.mem_map_of_mem rowKey h)
      rw [hne]
      exact ih hnodup.2 h

/-- C1. For every stored server row whose `(name, version)` key is among a
reconciliation run's fetched batch (primary keys duplicate-free in the
store, batch keys duplicate-free), the run's upserts update that row in
place: the upstream-owned columns take the freshly fetched values and
`updatedAt` becomes the current time, while `versionRegistryMeta`,
`visibility` and `createdAt` keep exactly their pre-run values. -/
theorem syncUpserts_frame (now : Int) (ts : List NewServerRec)
    (rows : List ServerRow) (r : ServerRow) (t : NewServerRec)
    (hrowsN : (rows.map rowKey).Nodup)
    (htsN : (ts.map (fun u => (u.name, u.version))).Nodup)
    (hr : r ∈ rows) (ht : t ∈ ts)
    (hkn : t.name = r.name) (hkv : t.version = r.version) :
    ∃ r', findRow (syncUpserts now ts rows) r.name r.version = some r' ∧
      r'.versionRegistryMeta = r.versionRegistryMeta ∧
      r'.visibility = r.visibility ∧
      r'.createdAt = r.createdAt ∧
      r'.updatedAt = now ∧
      r'.description = t.description ∧
      r'.status = t.status ∧
      r'.isLatest = t.isLatest ∧
      r'.repository = t.repository ∧
      r'.websiteUrl = t.websiteUrl ∧
      r'.packages = t.packages ∧
      r'.remotes = t.remotes ∧
      r'.publisherMeta = t.publisherMeta ∧
      r'.parentRegistryMeta = t.parentRegistryMeta ∧
      r'.publishedAt = t.publishedAt := by
  obtain ⟨l₁, l₂, hts⟩ := List.append_of_mem ht
  subst hts
  have hsplit := htsN
  rw [List.map_append, List.map_cons, List.nodup_append] at hsplit
  obtain ⟨hn1, hn2, hdisj⟩ := hsplit
  rw [List.nodup_cons] at hn2
  have hl₁ : ∀ u ∈ l₁, ¬(u.name = r.name ∧ u.version = r.version) := by
    intro u hu hc
    have hmem1 : (u.name, u.version) ∈ l₁.map (fun u => (u.name, u.version)) :=
      List.mem_map_of_mem _ hu
    have hukey : (u.name, u.version) = (t.name, t.version) :=
      Prod.ext (by rw [hc.1, hkn]) (by rw [hc.2, hkv])
    exact hdisj hmem1 (hukey ▸ List.mem_cons_self _ _)
  have hl₂ : ∀ u ∈ l₂, ¬(u.name = r.name ∧ u.version = r.version) := by
    intro u hu hc
    apply hn2.1
    rw [List.mem_map]
    exact ⟨u, hu, Prod.ext (by rw [hc.1, hkn]) (by rw [hc.2, hkv])⟩
  refine ⟨applyUpsertUpdate now t r, ?_, rfl, rfl, rfl, rfl, rfl, rfl, rfl, rfl,
    rfl, rfl, rfl, rfl, rfl, rfl⟩
  unfold syncUpserts
  rw [List.foldl_append, List.foldl_cons]
  rw [show List.foldl (fun acc u => upsertServer now u acc) rows l₁ =
      syncUpserts now l₁ rows from rfl]
  rw [show List.foldl (fun acc u => upsertServer now u acc)
      (upsertServer now t (syncUpserts now l₁ rows)) l₂ =
      syncUpserts now l₂ (upsertServer now t (syncUpserts now l₁ rows)) from rfl]
  rw [findRow_syncUpserts_other now l₂ _ r.name r.version hl₂]
  have hfind1 : findRow (syncUpserts now l₁ rows) t.name t.version = some r := by
    rw [hkn, hkv]
    rw [findRow_syncUpserts_other now l₁ rows r.name r.version hl₁]
    exact findRow_of_mem rows r hrowsN hr
  have := findRow_upsert_hit now t (syncUpserts now l₁ rows) r hfind1
  rw [hkn, hkv] at this
  exact this

theorem syncUpserts_frame_witness :
    ∃ r', findRow (syncUpserts 7 [sampleNew] [sampleRow]) sampleRow.name sampleRow.version =
        some r' ∧
      r'.versionRegistryMeta = sampleRow.versionRegistryMeta ∧
      r'.visibility = sampleRow.visibility ∧
      r'.createdAt = sampleRow.createdAt ∧
      r'.updatedAt = 7 ∧
      r'.description = sampleNew.description ∧
      r'.status = sampleNew.status ∧
      r'.isLatest = sampleNew.isLatest ∧
      r'.repository = sampleNew.repository ∧
      r'.websiteUrl = sampleNew.websiteUrl ∧
      r'.packages = sampleNew.packages ∧
      r'.remotes = sampleNew.remotes ∧
      r'.publisherMeta = sampleNew.publisherMeta ∧
      r'.parentRegistryMeta = sampleNew.parentRegistryMeta ∧
      r'.publishedAt = sampleNew.publishedAt :=
  syncUpserts_frame 7 [sampleNew] [sampleRow] sampleRow sampleNew
    (by decide) (by decide) (by decide) (by decide) (by decide) (by decide)

/-- C7. For every parsed upstream record whose transformed `(name,
version)` key has no stored row, the upsert takes the insert branch: it
appends exactly the transformed payload as a new row, whose
`versionRegistryMeta` is the empty map, whose `visibility` is the column
default `draft`, and whose upstream-owned fields are the fetched record's
values (via the transform's documented `||` defaults for absent
optionals). -/
theorem upsert_insert_fresh (now : Int) (rec : ValidRecord) (rows : List ServerRow)
    (h : ∀ r ∈ rows, ¬(r.name = (transformToSubregistryFormat rec).name ∧
      r.version = (transformToSubregistryFormat rec).version)) :
    upsertServer now (transformToSubregistryFormat rec) rows =
      rows ++ [insertRow now (transformToSubregistryFormat rec)] ∧
    (insertRow now (transformToSubregistryFormat rec)).versionRegistryMeta = [] ∧
    (insertRow now (transformToSubregistryFormat rec)).visibility = .draft ∧
    (insertRow now (transformToSubregistryFormat rec)).name = rec.server.name ∧
    (insertRow now (transformToSubregistryFormat rec)).description = rec.server.description ∧
    (rec.server.version ≠ "" →
      (insertRow now (transformToSubregistryFormat rec)).version = rec.server.version) ∧
    (∀ st, rec.server.status = some st →
      (insertRow now (transformToSubregistryFormat rec)).status = st) ∧
    (rec.server.status = none →
      (insertRow now (transformToSubregistryFormat rec)).status = .active) ∧
    (insertRow now (transformToSubregistryFormat rec)).repository = rec.server.repository ∧
    (insertRow now (transformToSubregistryFormat rec)).packages = rec.server.packages ∧
    (insertRow now (transformToSubregistryFormat rec)).remotes = rec.server.remotes ∧
    (insertRow now (transformToSubregistryFormat rec)).isLatest = rec.official.isLatest ∧
    (insertRow now (transformToSubregistryFormat rec)).publishedAt = rec.official.publishedAt ∧
    (insertRow now (transformToSubregistryFormat rec)).parentRegistryMeta = rec.metaAll ∧
    (∀ m, rec.server.meta = some m →
      (insertRow now (transformToSubregistryFormat rec)).publisherMeta = m) ∧
    (insertRow now (transformToSubregistryFormat rec)).createdAt = now ∧
    (insertRow now (transformToSubregistryFormat rec)).updatedAt = now := by
  refine ⟨?_, rfl, rfl, rfl, rfl, ?_, ?_, ?_, rfl, rfl, rfl, rfl, rfl, rfl, ?_, rfl, rfl⟩
  · unfold upsertServer
    rw [if_neg]
    rw [List.any_eq_true]
    rintro ⟨r, hr, hm⟩
    exact h r hr (rowMatchesKey_iff _ r |>.mp hm)
  · intro hv
    simp [insertRow, transformToSubregistryFormat, hv]
  · intro st hst
    simp [insertRow, transformToSubregistryFormat, hst]
  · intro hst
    simp [insertRow, transformToSubregistryFormat, hst]
  · intro m hm
    simp [insertRow, transformToSubregistryFormat, hm]

theorem upsert_insert_fresh_witness :
    upsertServer 4
        (transformToSubregistryFormat
          ⟨⟨"com.example/srv", "a server", "1.0.0", none, none, none, none, none, none⟩,
           ⟨.active, 5, 6, true⟩,
           [("io.modelcontextprotocol.registry/official", MVal.null)]⟩) [] =
      [] ++ [insertRow 4
        (transformToSubregistryFormat
          ⟨⟨"com.example/srv", "a server", "1.0.0", none, none, none, none, none, none⟩,
           ⟨.active, 5, 6, true⟩,
           [("io.modelcontextprotocol.registry/official", MVal.null)]⟩)] :=
  (upsert_insert_fresh 4
    ⟨⟨"com.example/srv", "a server", "1.0.0", none, none, none, none, none, none⟩,
     ⟨.active, 5, 6, true⟩,
     [("io.modelcontextprotocol.registry/official", MVal.null)]⟩ []
    (by intro r hr; cases hr)).1

/-- C2 evaluation. When a page fetch fails at the transport level, the
implemented sync run does not abort with a failure row: the error is
swallowed inside `fetchOfficialMCPRegistry` (its catch returns the empty
list), so the invocation upserts nothing but reports success and appends a
`sync_log` row with `status = success` and `serversProcessed = 0`, instead
of the specified single failure row carrying the error message. -/
theorem syncTransportFailure_recordsSuccess (now : Int) (msg : String) (st : SyncState) :
    syncFromOfficialRegistry now [PageResponse.httpError msg] st =
      ({ success := true, processed := 0, error := none },
       { servers := st.servers
         syncLog := st.syncLog ++
           [{ source := "official-registry", status := .success,
              serversProcessed := 0, errorMessage := none, syncedAt := now }] }) := rfl

/-- C5. For every fetched page containing at least one structurally
invalid and at least one structurally valid record, the invalid records
are skipped per record: the run completes successfully, its processed
count (also recorded in the success `sync_log` row) is exactly the number
of valid records, which is positive and strictly below the page size. -/
theorem syncPartialFailure (now : Int) (st : SyncState) (raws : List RawRecord)
    (hinv : ∃ r ∈ raws, safeParse r = none)
    (hval : ∃ r ∈ raws, (safeParse r).isSome = true) :
    (syncFromOfficialRegistry now [PageResponse.ok raws none] st).1.success = true ∧
    (syncFromOfficialRegistry now [PageResponse.ok raws none] st).1.processed =
      (raws.filterMap safeParse).length ∧
    (syncFromOfficialRegistry now [PageResponse.ok raws none] st).2.syncLog =
      st.syncLog ++ [{ source := "official-registry", status := .success,
                       serversProcessed := (raws.filterMap safeParse).length,
                       errorMessage := none, syncedAt := now }] ∧
    0 < (raws.filterMap safeParse).length ∧
    (raws.filterMap safeParse).length < raws.length := by
  refine ⟨rfl, ?_, ?_, ?_, ?_⟩
  · show ((raws.filterMap safeParse).map transformToSubregistryFormat).length = _
    rw [List.length_map]
  · show st.syncLog ++ [SyncLogRow.mk "official-registry" .success ((raws.filterMap safeParse).map transformToSubregistryFormat).length none now] = _
    rw [List.length_map]
  · obtain ⟨x, hx, hxsome⟩ := hval
    obtain ⟨v, hv⟩ := Option.isSome_iff_exists.mp hxsome
    have : v ∈ raws.filterMap safeParse := List.mem_filterMap.mpr ⟨x, hx, hv⟩
    exact List.length_pos.mpr (List.ne_nil_of_mem this)
  · obtain ⟨x, hx, hxnone⟩ := hinv
    obtain ⟨l₁, l₂, rfl⟩ := List.append_of_mem hx
    rw [List.filterMap_append, List.length_append, List.length_append,
      List.filterMap_cons_none hxnone, List.length_cons]
    have h1 := List.length_filterMap_le safeParse l₁
    have h2 := List.length_filterMap_le safeParse l₂
    omega

theorem syncPartialFailure_witness :
    (syncFromOfficialRegistry 3 [PageResponse.ok samplePage none] ⟨[], []⟩).1.success = true ∧
    (syncFromOfficialRegistry 3 [PageResponse.ok samplePage none] ⟨[], []⟩).1.processed = 9 := by
  have h := syncPartialFailure 3 ⟨[], []⟩ samplePage
    ⟨sampleRawInvalid, by decide, by decide⟩ ⟨sampleRawValid, by decide, by decide⟩
  refine ⟨h.1, ?_⟩
  rw [h.2.1]
  decide

/-! ### List-endpoint lemmas -/

/-- The visibility the filter effectively attributes to a package: the
enrichment row's value, or `draft` when no enrichment row exists. -/
theorem visibilityCond_iff (v : Visibility) (r : ServerRow) (pkg : Option PkgRow) :
    visibilityCond v r pkg = true ↔
      (r.visibility = v ∧
        (match pkg with
         | some p => p.visibility
         | none => .draft) = v) := by
  cases pkg with
  | some p =>
    cases v <;> simp [visibilityCond, and_comm]
  | none =>
    cases v <;> simp [visibilityCond, and_comm]

theorem mem_listPage_rows (db : Db) (f : ListFilter) (cursor : Option (String × String))
    (limit : Nat) (r : ServerRow) (hr : r ∈ (listPage db f cursor limit).rows) :
    listCond db f cursor r = true := by
  unfold listPage at hr
  simp only at hr
  have hmem : r ∈ (db.servers.filter (listCond db f cursor)).take (limit + 1) := by
    by_cases hm : limit < ((db.servers.filter (listCond db f cursor)).take (limit + 1)).length
    · rw [if_pos (by simpa using hm)] at hr
      exact List.mem_of_mem_take hr
    · rw [if_neg (by simpa using hm)] at hr
      exact hr
  exact (List.mem_filter.mp (List.mem_of_mem_take hmem)).2

/-- C4. A row is returned by a visibility-filtered page only when both its
own version-level visibility and the visibility of its package-enrichment
row (defaulting to `draft` when no enrichment row exists) equal the
filter; in addition, the visibility condition itself holds exactly in that
case, so a `published` version with no enrichment row is excluded from a
`visibility=published` listing. -/
theorem listPage_visibility (db : Db) (v : Visibility) (stf : Option Status)
    (cursor : Option (String × String)) (limit : Nat) :
    (∀ r ∈ (listPage db ⟨some v, stf⟩ cursor limit).rows,
      r.visibility = v ∧
        (match pkgFor db.pkgs r.name with
         | some p => p.visibility
         | none => .draft) = v) ∧
    (∀ (r : ServerRow) (pkg : Option PkgRow),
      visibilityCond v r pkg = true ↔
        (r.visibility = v ∧
          (match pkg with
           | some p => p.visibility
           | none => .draft) = v)) := by
  constructor
  · intro r hr
    have hcond := mem_listPage_rows db ⟨some v, stf⟩ cursor limit r hr
    unfold listCond filterCond at hcond
    have hvis : visibilityCond v r (pkgFor db.pkgs r.name) = true := by
      rcases Bool.and_eq_true_iff.mp hcond with ⟨h1, _⟩
      rcases Bool.and_eq_true_iff.mp h1 with ⟨h2, _⟩
      exact h2
    exact (visibilityCond_iff v r (pkgFor db.pkgs r.name)).mp hvis
  · exact visibilityCond_iff v

theorem listPage_visibility_witness :
    (mkRow "com.example/srv" "1.0.0" 1 .published).visibility = .published ∧
      (match pkgFor sampleDb.pkgs (mkRow "com.example/srv" "1.0.0" 1 .published).name with
       | some p => p.visibility
       | none => .draft) = .published :=
  (listPage_visibility sampleDb .published none none 10).1
    (mkRow "com.example/srv" "1.0.0" 1 .published) (by decide)

theorem filter_listCond_none (db : Db) (f : ListFilter) :
    db.servers.filter (listCond db f none) =
      db.servers.filter (fun r => filterCond f r (pkgFor db.pkgs r.name)) := by
  apply List.filter_congr
  intro a _
  simp [listCond]

theorem filter_listCond_some (db : Db) (f : ListFilter) (c : String × String) :
    db.servers.filter (listCond db f (some c)) =
      (db.servers.filter (fun r => filterCond f r (pkgFor db.pkgs r.name))).filter
        (afterCursor c) := by
  rw [List.filter_filter]
  apply List.filter_congr
  intro a _
  simp [listCond, Bool.and_comm]

theorem listPage_count (db : Db) (f : ListFilter) (copt : Option (String × String))
    (limit : Nat) :
    (listPage db f copt limit).count = (listPage db f copt limit).rows.length ∧
    (listPage db f copt limit).rows.length ≤ limit ∧
    ((listPage db f copt limit).nextCursor ≠ none →
      (listPage db f copt limit).count = limit ∧
      limit < (db.servers.filter
        (fun r => filterCond f r (pkgFor db.pkgs r.name))).length) := by
  have hbase : (db.servers.filter (listCond db f copt)).length ≤
      (db.servers.filter (fun r => filterCond f r (pkgFor db.pkgs r.name))).length := by
    cases copt with
    | none => rw [filter_listCond_none]
    | some c =>
      rw [filter_listCond_some]
      exact List.length_filter_le _ _
  have htake : ((db.servers.filter (listCond db f copt)).take (limit + 1)).length ≤
      (db.servers.filter (listCond db f copt)).length := by
    rw [List.length_take]
    exact min_le_right _ _
  refine ⟨by simp only [listPage], ?_, ?_⟩
  · simp only [listPage]
    split
    · rw [List.length_take]
      exact min_le_left _ _
    · rename_i h
      simp only [decide_eq_true_eq] at h
      omega
  · simp only [listPage]
    split
    · rename_i h
      simp only [decide_eq_true_eq] at h
      intro _
      constructor
      · rw [List.length_take]
        omega
      · omega
    · intro hnc
      simp at hnc

/-- C10. In every successful list response, `metadata.count` is the number
of rows in the returned page (at most `limit`); whenever a further page
exists (`nextCursor` set), the count equals `limit` and is strictly
smaller than the total number of rows matching the filter, so it is never
that cross-page total. -/
theorem listServers_count (db : Db) (f : ListFilter) (cursor : Option String)
    (limit : Nat) (resp : ListResponse)
    (h : listServers db f cursor limit = some resp) :
    resp.count = resp.rows.length ∧
    resp.rows.length ≤ limit ∧
    (resp.nextCursor ≠ none →
      resp.count = limit ∧
      resp.count < (db.servers.filter
        (fun r => filterCond f r (pkgFor db.pkgs r.name))).length) := by
  have hpage : ∃ copt, resp = listPage db f copt limit := by
    cases cursor with
    | none =>
      exact ⟨none, by simpa [listServers] using h.symm⟩
    | some cs =>
      simp only [listServers] at h
      cases hu : decodeURIComponent cs with
      | none => rw [hu] at h; cases h
      | some ds =>
        rw [hu] at h
        have h2 : (decodeCursor ds).map (fun c => listPage db f (some c) limit) =
            some resp := h
        cases hd : decodeCursor ds with
        | none => rw [hd] at h2; cases h2
        | some c =>
          rw [hd] at h2
          exact ⟨some c, by simpa using h2.symm⟩
  obtain ⟨copt, rfl⟩ := hpage
  obtain ⟨h1, h2, h3⟩ := listPage_count db f copt limit
  exact ⟨h1, h2, fun hnc => ⟨(h3 hnc).1, by rw [(h3 hnc).1]; exact (h3 hnc).2⟩⟩

theorem listServers_count_witness :
    (listPage sampleDb ⟨none, none⟩ none 2).count =
      (listPage sampleDb ⟨none, none⟩ none 2).rows.length ∧
    (listPage sampleDb ⟨none, none⟩ none 2).rows.length ≤ 2 ∧
    ((listPage sampleDb ⟨none, none⟩ none 2).nextCursor ≠ none →
      (listPage sampleDb ⟨none, none⟩ none 2).count = 2 ∧
      (listPage sampleDb ⟨none, none⟩ none 2).count <
        (sampleDb.servers.filter
          (fun r => filterCond ⟨none, none⟩ r (pkgFor sampleDb.pkgs r.name))).length) :=
  listServers_count sampleDb ⟨none, none⟩ none 2 (listPage sampleDb ⟨none, none⟩ none 2) rfl

/-! ### Versions-endpoint lemmas -/

theorem insertByPublishedDesc_perm (r : ServerRow) (l : List ServerRow) :
    (insertByPublishedDesc r l).Perm (r :: l) := by
  induction l with
  | nil => exact List.Perm.refl _
  | cons x xs ih =>
    unfold insertByPublishedDesc
    by_cases h : x.publishedAt < r.publishedAt
    · rw [if_pos h]
    · rw [if_neg h]
      exact (ih.cons x).trans (List.Perm.swap r x xs)

theorem sortByPublishedDesc_perm (l : List ServerRow) :
    (sortByPublishedDesc l).Perm l := by
  induction l with
  | nil => exact List.Perm.refl _
  | cons x xs ih =>
    exact (insertByPublishedDesc_perm x (sortByPublishedDesc xs)).trans (ih.cons x)

theorem mem_insertByPublishedDesc (y r : ServerRow) (l : List ServerRow) :
    y ∈ insertByPublishedDesc r l ↔ y = r ∨ y ∈ l := by
  rw [(insertByPublishedDesc_perm r l).mem_iff]
  simp

theorem insertByPublishedDesc_sorted (r : ServerRow) (l : List ServerRow)
    (hl : List.Pairwise (fun a b => b.publishedAt ≤ a.publishedAt) l) :
    List.Pairwise (fun a b => b.publishedAt ≤ a.publishedAt)
      (insertByPublishedDesc r l) := by
  induction l with
  | nil => simp [insertByPublishedDesc]
  | cons x xs ih =>
    unfold insertByPublishedDesc
    by_cases h : x.publishedAt < r.publishedAt
    · rw [if_pos h]
      refine List.Pairwise.cons ?_ hl
      intro y hy
      rcases List.mem_cons.mp hy with hy | hy
      · subst hy; omega
      · have := (List.pairwise_cons.mp hl).1 y hy
        omega
    · rw [if_neg h]
      rw [List.pairwise_cons] at hl
      refine List.Pairwise.cons ?_ (ih hl.2)
      intro y hy
      rcases (mem_insertByPublishedDesc y r xs).mp hy with hy | hy
      · subst hy; omega
      · exact hl.1 y hy

theorem sortByPublishedDesc_sorted (l : List ServerRow) :
    List.Pairwise (fun a b => b.publishedAt ≤ a.publishedAt) (sortByPublishedDesc l) := by
  induction l with
  | nil => simp [sortByPublishedDesc]
  | cons x xs ih => exact insertByPublishedDesc_sorted x (sortByPublishedDesc xs) ih

/-- C8. The all-versions endpoint returns exactly the stored rows with the
requested name that pass the optional filters, ordered by `publishedAt`
descending (newest first), and answers 404 exactly when no stored row
matches. -/
theorem getVersions_spec (db : Db) (n : String) (f : ListFilter) :
    (getVersions db n f = none ↔ db.servers.filter (versionsCond db n f) = []) ∧
    (∀ out, getVersions db n f = some out →
      out.Perm (db.servers.filter (versionsCond db n f)) ∧
      List.Pairwise (fun a b => b.publishedAt ≤ a.publishedAt) out) := by
  constructor
  · unfold getVersions
    by_cases h : (sortByPublishedDesc (db.servers.filter (versionsCond db n f))).isEmpty
    · rw [if_pos h]
      simp only [true_iff]
      rw [List.isEmpty_iff] at h
      have hp := (sortByPublishedDesc_perm (db.servers.filter (versionsCond db n f))).symm
      rw [h] at hp
      exact hp.eq_nil
    · rw [if_neg h]
      simp only [reduceCtorEq, false_iff]
      intro hnil
      apply h
      rw [List.isEmpty_iff, hnil]
      rfl
  · intro out hout
    unfold getVersions at hout
    by_cases h : (sortByPublishedDesc (db.servers.filter (versionsCond db n f))).isEmpty
    · rw [if_pos h] at hout
      cases hout
    · rw [if_neg h] at hout
      have hout' : out = sortByPublishedDesc (db.servers.filter (versionsCond db n f)) := by
        cases hout
        rfl
      subst hout'
      exact ⟨sortByPublishedDesc_perm _, sortByPublishedDesc_sorted _⟩

theorem getVersions_spec_witness :
    (mkRow "com.example/srv" "2.0.0" 2 .published :: [mkRow "com.example/srv" "1.0.0" 1 .published]).Perm
      (sampleDb.servers.filter (versionsCond sampleDb "com.example/srv" ⟨none, none⟩)) ∧
    List.Pairwise (fun a b => b.publishedAt ≤ a.publishedAt)
      (mkRow "com.example/srv" "2.0.0" 2 .published ::
        [mkRow "com.example/srv" "1.0.0" 1 .published]) :=
  (getVersions_spec sampleDb "com.example/srv" ⟨none, none⟩).2
    (mkRow "com.example/srv" "2.0.0" 2 .published ::
      [mkRow "com.example/srv" "1.0.0" 1 .published]) (by decide)

/-! ### Cursor codec lemmas -/

theorem splitOnChar_ne_nil (sep : Char) (l : List Char) : splitOnChar sep l ≠ [] := by
  cases l with
  | nil => simp [splitOnChar]
  | cons c rest =>
    simp only [splitOnChar]
    by_cases h : c = sep
    · rw [if_pos h]
      simp
    · rw [if_neg h]
      cases splitOnChar sep rest <;> simp

theorem splitOnChar_of_not_mem (sep : Char) (l : List Char) (h : sep ∉ l) :
    splitOnChar sep l = [l] := by
  induction l with
  | nil => rfl
  | cons c rest ih =>
    simp only [splitOnChar]
    rw [if_neg (fun hc => h (by rw [hc]; exact List.mem_cons_self sep rest))]
    rw [ih (fun hm => h (List.mem_cons_of_mem c hm))]

theorem splitOnChar_append (sep : Char) (l₁ l₂ : List Char) (h : sep ∉ l₁) :
    splitOnChar sep (l₁ ++ sep :: l₂) = l₁ :: splitOnChar sep l₂ := by
  induction l₁ with
  | nil =>
    simp [splitOnChar]
  | cons c rest ih =>
    simp only [List.cons_append, splitOnChar]
    rw [if_neg (fun hc => h (by rw [hc]; exact List.mem_cons_self sep rest))]
    have ihr := ih (fun hm => h (List.mem_cons_of_mem c hm))
    simp only [List.append_eq] at ihr ⊢
    rw [ihr]

theorem splitOnChar_all (sep : Char) (P : Char → Bool) (l : List Char)
    (h : ∀ p ∈ splitOnChar sep l, ∀ c ∈ p, P c = true) :
    ∀ c ∈ l, c = sep ∨ P c = true := by
  induction l with
  | nil => intro c hc; cases hc
  | cons x rest ih =>
    by_cases hx : x = sep
    · subst hx
      have hrest : ∀ p ∈ splitOnChar x rest, ∀ c ∈ p, P c = true := by
        intro p hp
        apply h
        simp only [splitOnChar, if_pos rfl]
        exact List.mem_cons_of_mem _ hp
      intro c hc
      rcases List.mem_cons.mp hc with rfl | hm
      · exact Or.inl rfl
      · exact ih hrest c hm
    · cases hsplit : splitOnChar sep rest with
      | nil => exact absurd hsplit (splitOnChar_ne_nil sep rest)
      | cons hd tl =>
        have hshape : splitOnChar sep (x :: rest) = (x :: hd) :: tl := by
          simp only [splitOnChar]
          rw [if_neg hx, hsplit]
        have hhead : ∀ c ∈ x :: hd, P c = true :=
          h (x :: hd) (by rw [hshape]; exact List.mem_cons_self _ _)
        have hrest : ∀ p ∈ splitOnChar sep rest, ∀ c ∈ p, P c = true := by
          intro p hp
          rw [hsplit] at hp
          rcases List.mem_cons.mp hp with rfl | hp2
          · intro c hc
            exact hhead c (List.mem_cons_of_mem x hc)
          · exact h p (by rw [hshape]; exact List.mem_cons_of_mem _ hp2)
        intro c hc
        rcases List.mem_cons.mp hc with rfl | hm
        · exact Or.inr (hhead c (List.mem_cons_self _ _))
        · exact ih hrest c hm

/-- A validated server name contains no character outside its two pattern
classes and the `/` separator. -/
theorem nameOk_not_mem (s : String) (h : nameOk s = true) (ch : Char)
    (hch : (nameChar1 ch || nameChar2 ch) = false) (hsep : ch ≠ '/') :
    ch ∉ s.data := by
  intro hmem
  unfold nameOk at h
  rcases hsp : splitOnChar '/' s.data with _ | ⟨a, rest⟩
  · rw [hsp] at h; simp at h
  rcases rest with _ | ⟨b, rest2⟩
  · rw [hsp] at h; simp at h
  rcases rest2 with _ | ⟨c2, rest3⟩
  · rw [hsp] at h
    simp only [Bool.and_eq_true] at h
    have ha : a.all nameChar1 = true := by tauto
    have hb : b.all nameChar2 = true := by tauto
    have hall : ∀ p ∈ splitOnChar '/' s.data, ∀ c ∈ p,
        (nameChar1 c || nameChar2 c) = true := by
      rw [hsp]
      intro p hp c hc
      rcases List.mem_cons.mp hp with rfl | hp2
      · have hx := List.all_eq_true.mp ha c hc
        simp [hx]
      · rcases List.mem_cons.mp hp2 with rfl | hp3
        · have hx := List.all_eq_true.mp hb c hc
          simp [hx]
        · cases hp3
    rcases splitOnChar_all '/' (fun c => nameChar1 c || nameChar2 c) s.data hall ch hmem
      with hc | hc
    · exact hsep hc
    · rw [hch] at hc
      cases hc
  · rw [hsp] at h; simp at h

/-- A validated server name contains no `:` (its two pattern segments
admit only letters, digits and `.`, `_`, `-`, and the separator is `/`). -/
theorem nameOk_no_colon (s : String) (h : nameOk s = true) : ':' ∉ s.data :=
  nameOk_not_mem s h ':' (by decide) (by decide)

/-- A validated server name contains no `%` either, so
`decodeURIComponent` never alters or rejects the name segment. -/
theorem nameOk_no_percent (s : String) (h : nameOk s = true) : '%' ∉ s.data :=
  nameOk_not_mem s h '%' (by decide) (by decide)

theorem data_encodeCursor (n v : String) :
    (encodeCursor n v).data = n.data ++ ':' :: v.data := by
  show (n ++ ":" ++ v).data = _
  rw [String.append_assoc]
  rfl

/-- A character other than `%` passes through a decode step unchanged. -/
theorem percentStep_of_ne (c : Char) (rest : List Char) (hcne : c ≠ '%') :
    percentStep c rest = some (c, rest) := by
  unfold percentStep
  rw [if_neg hcne]

theorem percentDecodeAux_of_not_mem :
    ∀ (fuel : Nat) (l : List Char), '%' ∉ l → l.length ≤ fuel →
      percentDecodeAux fuel l = some l := by
  intro fuel
  induction fuel with
  | zero =>
    intro l h hl
    cases l with
    | nil => rfl
    | cons c rest => simp at hl
  | succ n ih =>
    intro l h hl
    cases l with
    | nil => rfl
    | cons c rest =>
      have hcne : c ≠ '%' := fun hc => h (by rw [hc]; exact List.mem_cons_self _ _)
      simp only [percentDecodeAux, percentStep_of_ne c rest hcne]
      rw [ih rest (fun hm => h (List.mem_cons_of_mem c hm))
        (by simp only [List.length_cons] at hl; omega)]
      rfl

/-- Percent decoding is the identity on percent-free character lists. -/
theorem percentDecode_of_not_mem (l : List Char) (h : '%' ∉ l) :
    percentDecode l = some l :=
  percentDecodeAux_of_not_mem l.length l h le_rfl

/-- `decodeURIComponent` is the identity on percent-free strings. -/
theorem decodeURIComponent_of_not_mem (s : String) (h : '%' ∉ s.data) :
    decodeURIComponent s = some s := by
  unfold decodeURIComponent
  rw [percentDecode_of_not_mem s.data h]
  rfl

/-- A cursor built from percent-free components passes `decodeURIComponent`
unchanged (the separator `:` is not an escape introducer). -/
theorem decodeURIComponent_encodeCursor (n v : String)
    (hn : '%' ∉ n.data) (hv : '%' ∉ v.data) :
    decodeURIComponent (encodeCursor n v) = some (encodeCursor n v) := by
  apply decodeURIComponent_of_not_mem
  rw [data_encodeCursor]
  intro hm
  rcases List.mem_append.mp hm with h1 | h2
  · exact hn h1
  · rcases List.mem_cons.mp h2 with he | h3
    · exact absurd he (by decide)
    · exact hv h3

/-- Round trip of the cursor codec on colon-free components. -/
theorem decode_encodeCursor (n v : String) (hn : ':' ∉ n.data) (hv : ':' ∉ v.data) :
    decodeCursor (encodeCursor n v) = some (n, v) := by
  unfold decodeCursor
  rw [data_encodeCursor, splitOnChar_append ':' n.data v.data hn,
    splitOnChar_of_not_mem ':' v.data hv]

/-- C9. For every server row with a validated name (every stored row's
name passed `RegistryServerSchema`) whose version contains no `:`,
decoding the `name:version` cursor built from it by splitting on `:`
recovers exactly `(name, version)`; and this round trip fails for some
version containing `:`, because the decoder keeps only the first two
segments. -/
theorem cursor_roundtrip :
    (∀ n v : String, nameOk n = true → ':' ∉ v.data →
      decodeCursor (encodeCursor n v) = some (n, v)) ∧
    (∃ n v : String, nameOk n = true ∧ ':' ∈ v.data ∧
      decodeCursor (encodeCursor n v) ≠ some (n, v)) := by
  constructor
  · intro n v hn hv
    exact decode_encodeCursor n v (nameOk_no_colon n hn) hv
  · exact ⟨"com.example/srv", "1:0", by decide, by decide, by decide⟩

theorem cursor_roundtrip_witness :
    decodeCursor (encodeCursor "com.example/srv" "1.0.0") =
      some ("com.example/srv", "1.0.0") :=
  cursor_roundtrip.1 "com.example/srv" "1.0.0" (by decide) (by decide)

/-! ### Pagination order lemmas -/

theorem keyLt_irrefl (a : String × String) : ¬ keyLt a a := by
  simp [keyLt]

theorem keyLt_trans {a b c : String × String} (h1 : keyLt a b) (h2 : keyLt b c) :
    keyLt a c := by
  rcases h1 with h1 | ⟨h1e, h1v⟩ <;> rcases h2 with h2 | ⟨h2e, h2v⟩
  · exact Or.inl (lt_trans h1 h2)
  · exact Or.inl (h2e ▸ h1)
  · exact Or.inl (h1e ▸ h2)
  · exact Or.inr ⟨h1e.trans h2e, lt_trans h1v h2v⟩

theorem keyLt_asymm {a b : String × String} (h : keyLt a b) : ¬ keyLt b a :=
  fun h2 => keyLt_irrefl a (keyLt_trans h h2)

theorem afterCursor_iff (c : String × String) (r : ServerRow) :
    afterCursor c r = true ↔ keyLt c (rowKey r) := by
  simp only [afterCursor, Bool.or_eq_true, Bool.and_eq_true, decide_eq_true_eq,
    beq_iff_eq, keyLt, rowKey]
  constructor
  · rintro (h | ⟨h1, h2⟩)
    · exact Or.inl (String.lt_iff_toList_lt.mpr h)
    · exact Or.inr ⟨h1.symm, String.lt_iff_toList_lt.mpr h2⟩
  · rintro (h | ⟨h1, h2⟩)
    · exact Or.inl (String.lt_iff_toList_lt.mp h)
    · exact Or.inr ⟨h1.symm, String.lt_iff_toList_lt.mp h2⟩

theorem after_and_after {c k : String × String} (hck : keyLt c k) (r : ServerRow) :
    (afterCursor k r && afterCursor c r) = afterCursor k r := by
  cases h : afterCursor k r with
  | false => simp
  | true =>
    have hc : afterCursor c r = true :=
      (afterCursor_iff c r).mpr (keyLt_trans hck ((afterCursor_iff k r).mp h))
    simp [hc]

theorem take_getLast_isSome {α : Type} (F : List α) (limit : Nat)
    (h1 : 1 ≤ limit) (h2 : limit ≤ F.length) :
    ∃ last, (F.take limit).getLast? = some last := by
  have hne : F.take limit ≠ [] := by
    intro hnil
    have hl := List.length_take limit F
    rw [hnil] at hl
    simp at hl
    omega
  exact ⟨(F.take limit).getLast hne, List.getLast?_eq_getLast _ hne⟩

/-- On a strictly key-sorted list, filtering by "strictly after the key of
the last element of the first `n` rows" yields exactly the remaining
suffix: rows at or before that key fail the cursor predicate, rows beyond
it all pass. -/
theorem filter_afterCursor_eq_drop (L : List ServerRow)
    (hs : List.Pairwise (fun a b => keyLt (rowKey a) (rowKey b)) L)
    (n : Nat) (hn : 0 < n) (hnL : n ≤ L.length)
    (last : ServerRow) (hlast : (L.take n).getLast? = some last) :
    L.filter (afterCursor (rowKey last)) = L.drop n := by
  have hA : L.take n ≠ [] := by
    intro hnil
    have hl := List.length_take n L
    rw [hnil] at hl
    simp at hl
    omega
  have hlast_eq : (L.take n).getLast hA = last := by
    have h1 := List.getLast?_eq_getLast (L.take n) hA
    rw [hlast] at h1
    exact (Option.some.injEq _ _ ▸ h1).symm
  have hAeq : (L.take n).dropLast ++ [last] = L.take n := by
    rw [← hlast_eq]
    exact List.dropLast_append_getLast hA
  have hLsplit : L.take n ++ L.drop n = L := List.take_append_drop n L
  have hs' : List.Pairwise (fun a b => keyLt (rowKey a) (rowKey b))
      (L.take n ++ L.drop n) := by rw [hLsplit]; exact hs
  rw [List.pairwise_append] at hs'
  obtain ⟨hsA, _, hcross⟩ := hs'
  have hlast_memA : last ∈ L.take n := by
    rw [← hAeq]
    exact List.mem_append.mpr (Or.inr (List.mem_singleton.mpr rfl))
  have hAfalse : ∀ a ∈ L.take n, ¬ (afterCursor (rowKey last) a = true) := by
    intro a ha hafter
    have hlt : keyLt (rowKey last) (rowKey a) := (afterCursor_iff _ a).mp hafter
    have ha' : a ∈ (L.take n).dropLast ++ [last] := by rw [hAeq]; exact ha
    rcases List.mem_append.mp ha' with hd | hone
    · have hsA' : List.Pairwise (fun a b => keyLt (rowKey a) (rowKey b))
          ((L.take n).dropLast ++ [last]) := by rw [hAeq]; exact hsA
      rw [List.pairwise_append] at hsA'
      have := hsA'.2.2 a hd last (List.mem_singleton.mpr rfl)
      exact keyLt_asymm this hlt
    · rw [List.mem_singleton.mp hone] at hlt
      exact keyLt_irrefl _ hlt
  have hBtrue : ∀ b ∈ L.drop n, afterCursor (rowKey last) b = true := by
    intro b hb
    exact (afterCursor_iff _ b).mpr (hcross last hlast_memA b hb)
  conv_lhs => rw [← hLsplit]
  rw [List.filter_append, List.filter_eq_nil_iff.mpr hAfalse,
    List.filter_eq_self.mpr hBtrue, List.nil_append]

theorem listPage_eq_of_le (db : Db) (f : ListFilter) (copt : Option (String × String))
    (limit : Nat)
    (h : (db.servers.filter (listCond db f copt)).length ≤ limit) :
    listPage db f copt limit =
      ⟨db.servers.filter (listCond db f copt),
       (db.servers.filter (listCond db f copt)).length, none⟩ := by
  have htake : (db.servers.filter (listCond db f copt)).take (limit + 1) =
      db.servers.filter (listCond db f copt) :=
    List.take_of_length_le (by omega)
  simp only [listPage, htake]
  rw [if_neg (by simpa using (by omega : ¬ limit <
    (db.servers.filter (listCond db f copt)).length)),
    if_neg (by simpa using (by omega : ¬ limit <
    (db.servers.filter (listCond db f copt)).length))]

theorem listPage_eq_of_lt (db : Db) (f : ListFilter) (copt : Option (String × String))
    (limit : Nat) (last : ServerRow)
    (hlt : limit < (db.servers.filter (listCond db f copt)).length)
    (hlast : ((db.servers.filter (listCond db f copt)).take limit).getLast? = some last) :
    listPage db f copt limit =
      ⟨(db.servers.filter (listCond db f copt)).take limit, limit,
       some (encodeCursor last.name last.version)⟩ := by
  have hres : ((db.servers.filter (listCond db f copt)).take (limit + 1)).length
      = limit + 1 := by
    rw [List.length_take]
    omega
  have hmore : limit < ((db.servers.filter (listCond db f copt)).take (limit + 1)).length := by
    omega
  have htt : ((db.servers.filter (listCond db f copt)).take (limit + 1)).take limit =
      (db.servers.filter (listCond db f copt)).take limit := by
    rw [List.take_take]
    congr 1
    omega
  have hcount : ((db.servers.filter (listCond db f copt)).take limit).length = limit := by
    rw [List.length_take]
    omega
  simp only [listPage]
  rw [if_pos (by simpa using hmore), if_pos (by simpa using hmore), htt, hlast, hcount]

/-- Completeness of cursor pagination on key-sorted tables free of `:`
and `%`: starting from any reachable cursor (none, or one encoding the
key of a stored row), chaining the endpoint until `nextCursor` is null
returns exactly the cursor-filtered scan, provided the fuel exceeds its
length. The `%` exclusion makes `decodeURIComponent` the identity on the
served cursors; the `:` exclusion makes the split recover the key. -/
theorem paginate_complete (db : Db) (f : ListFilter) (limit : Nat)
    (hs : List.Pairwise (fun a b => keyLt (rowKey a) (rowKey b)) db.servers)
    (hcf : ∀ r ∈ db.servers,
      (':' ∉ r.name.data ∧ '%' ∉ r.name.data) ∧
      (':' ∉ r.version.data ∧ '%' ∉ r.version.data))
    (hlim : 1 ≤ limit) :
    ∀ (fuel : Nat) (cur : Option String) (copt : Option (String × String)),
      (copt = none → cur = none) →
      (∀ c, copt = some c →
        cur = some (encodeCursor c.1 c.2) ∧ ∃ r ∈ db.servers, rowKey r = c) →
      (db.servers.filter (listCond db f copt)).length < fuel →
      paginate db f limit fuel cur = some (db.servers.filter (listCond db f copt)) := by
  intro fuel
  induction fuel with
  | zero => intro cur copt _ _ hlen; omega
  | succ n ih =>
    intro cur copt hnone hsome hlen
    have hcall : listServers db f cur limit = some (listPage db f copt limit) := by
      cases copt with
      | none => rw [hnone rfl]; rfl
      | some c =>
        obtain ⟨hcur, r, hr, hkey⟩ := hsome c rfl
        subst hkey
        rw [hcur]
        have hfree := hcf r hr
        have huri : decodeURIComponent (encodeCursor r.name r.version) =
            some (encodeCursor r.name r.version) :=
          decodeURIComponent_encodeCursor r.name r.version hfree.1.2 hfree.2.2
        have hdec : decodeCursor (encodeCursor r.name r.version) = some (rowKey r) :=
          decode_encodeCursor r.name r.version hfree.1.1 hfree.2.1
        simp only [listServers]
        rw [show encodeCursor (rowKey r).1 (rowKey r).2 = encodeCursor r.name r.version
          from rfl, huri]
        show (decodeCursor (encodeCursor r.name r.version)).map
          (fun c => listPage db f (some c) limit) = _
        rw [hdec]
        rfl
    show (match listServers db f cur limit with
      | none => none
      | some resp =>
        match resp.nextCursor with
        | none => some resp.rows
        | some nc => (paginate db f limit n (some nc)).map (resp.rows ++ ·)) =
      some (db.servers.filter (listCond db f copt))
    rw [hcall]
    by_cases hM : (db.servers.filter (listCond db f copt)).length ≤ limit
    · rw [listPage_eq_of_le db f copt limit hM]
    · have hlt : limit < (db.servers.filter (listCond db f copt)).length := by omega
      obtain ⟨last, hlast⟩ :=
        take_getLast_isSome (db.servers.filter (listCond db f copt)) limit hlim
          (le_of_lt hlt)
      rw [listPage_eq_of_lt db f copt limit last hlt hlast]
      have hlast_memM : last ∈ db.servers.filter (listCond db f copt) := by
        have hA : (db.servers.filter (listCond db f copt)).take limit ≠ [] := by
          intro hnil
          rw [hnil] at hlast
          cases hlast
        have h1 := List.getLast?_eq_getLast _ hA
        rw [hlast] at h1
        have h2 : last = ((db.servers.filter (listCond db f copt)).take limit).getLast hA :=
          Option.some.injEq _ _ ▸ h1
        rw [h2]
        exact List.mem_of_mem_take (List.getLast_mem hA)
      have hlast_db : last ∈ db.servers := (List.mem_filter.mp hlast_memM).1
      have hMsorted : List.Pairwise (fun a b => keyLt (rowKey a) (rowKey b))
          (db.servers.filter (listCond db f copt)) := hs.filter _
      have hsuffix : db.servers.filter (listCond db f (some (rowKey last))) =
          (db.servers.filter (listCond db f copt)).drop limit := by
        cases copt with
        | none =>
          rw [filter_listCond_some]
          rw [show db.servers.filter (fun r => filterCond f r (pkgFor db.pkgs r.name)) =
            db.servers.filter (listCond db f none) from (filter_listCond_none db f).symm]
          exact filter_afterCursor_eq_drop _ hMsorted limit hlim (le_of_lt hlt) last hlast
        | some c =>
          have hck : keyLt c (rowKey last) := by
            have := (List.mem_filter.mp hlast_memM).2
            unfold listCond at this
            rw [Bool.and_eq_true] at this
            exact (afterCursor_iff c last).mp this.2
          rw [filter_listCond_some]
          have hpoint :
              ((db.servers.filter (fun r => filterCond f r (pkgFor db.pkgs r.name))).filter
                (afterCursor (rowKey last))) =
              ((db.servers.filter (listCond db f (some c))).filter
                (afterCursor (rowKey last))) := by
            rw [filter_listCond_some db f c, List.filter_filter, List.filter_filter,
              List.filter_filter]
            apply List.filter_congr
            intro a _
            cases h1 : afterCursor (rowKey last) a with
            | false => simp
            | true =>
              have hc2 : afterCursor c a = true :=
                (afterCursor_iff c a).mpr (keyLt_trans hck ((afterCursor_iff _ a).mp h1))
              simp [hc2]
          rw [hpoint]
          exact filter_afterCursor_eq_drop _ hMsorted limit hlim (le_of_lt hlt) last hlast
      have hrec : paginate db f limit n (some (encodeCursor last.name last.version)) =
          some (db.servers.filter (listCond db f (some (rowKey last)))) := by
        apply ih (some (encodeCursor last.name last.version)) (some (rowKey last))
        · intro hc; cases hc
        · intro c hc
          have hc' : rowKey last = c := by injection hc
          subst hc'
          exact ⟨rfl, last, hlast_db, rfl⟩
        · rw [hsuffix]
          have : (db.servers.filter (listCond db f copt)).length < n + 1 := hlen
          have hdl : ((db.servers.filter (listCond db f copt)).drop limit).length =
              (db.servers.filter (listCond db f copt)).length - limit := by
            rw [List.length_drop]
          omega
      show (paginate db f limit n (some (encodeCursor last.name last.version))).map
          ((db.servers.filter (listCond db f copt)).take limit ++ ·) =
        some (db.servers.filter (listCond db f copt))
      rw [hrec, hsuffix]
      show some ((db.servers.filter (listCond db f copt)).take limit ++
        (db.servers.filter (listCond db f copt)).drop limit) = _
      rw [List.take_append_drop]

/-- C3 (amended: restricted to stored tables whose name and version
strings contain neither `:` nor `%`; validated names always satisfy
both, versions need not). For every such key-sorted table, filter, and
limit in `[1, 100]`: chaining the list endpoint from no cursor through
each `nextCursor` concatenates to exactly the filtered single scan, which
is strictly increasing in `(name, version)` (hence duplicate-free and
gap-free, and a cursor's source row is never redelivered); and on every
page, `nextCursor` is non-null exactly when a `limit+1`-th matching row
exists, in which case it encodes the `limit`-th returned row. A `:` in a
version truncates the split decode; a `%` in a version makes the
handler's `decodeURIComponent` rewrite the cursor or throw, so both must
be excluded. -/
theorem paginate_spec (db : Db) (f : ListFilter) (limit : Nat)
    (hs : List.Pairwise (fun a b => keyLt (rowKey a) (rowKey b)) db.servers)
    (hcf : ∀ r ∈ db.servers,
      (':' ∉ r.name.data ∧ '%' ∉ r.name.data) ∧
      (':' ∉ r.version.data ∧ '%' ∉ r.version.data))
    (hlim : 1 ≤ limit) (_hlim2 : limit ≤ 100) :
    (∀ fuel, db.servers.length < fuel →
      paginate db f limit fuel none =
        some (db.servers.filter (fun r => filterCond f r (pkgFor db.pkgs r.name)))) ∧
    List.Pairwise (fun a b => keyLt (rowKey a) (rowKey b))
      (db.servers.filter (fun r => filterCond f r (pkgFor db.pkgs r.name))) ∧
    (∀ copt : Option (String × String),
      ((listPage db f copt limit).nextCursor ≠ none ↔
        limit + 1 ≤ (db.servers.filter (listCond db f copt)).length) ∧
      (∀ s, (listPage db f copt limit).nextCursor = some s →
        ∃ last, (listPage db f copt limit).rows.getLast? = some last ∧
          s = encodeCursor last.name last.version)) := by
  refine ⟨?_, hs.filter _, ?_⟩
  · intro fuel hf
    have h := paginate_complete db f limit hs hcf hlim fuel none none
      (fun _ => rfl) (fun c hc => by cases hc)
      (by
        have := List.length_filter_le (listCond db f none) db.servers
        omega)
    rw [filter_listCond_none] at h
    exact h
  · intro copt
    by_cases hM : (db.servers.filter (listCond db f copt)).length ≤ limit
    · rw [listPage_eq_of_le db f copt limit hM]
      constructor
      · simp
        omega
      · intro s hc
        cases hc
    · have hlt : limit < (db.servers.filter (listCond db f copt)).length := by omega
      obtain ⟨last, hlast⟩ :=
        take_getLast_isSome (db.servers.filter (listCond db f copt)) limit hlim
          (le_of_lt hlt)
      rw [listPage_eq_of_lt db f copt limit last hlt hlast]
      constructor
      · simp
        omega
      · intro s hc
        have hse : s = encodeCursor last.name last.version := by
          injection hc with h1
          exact h1.symm
        exact ⟨last, hlast, hse⟩

theorem paginate_spec_witness :
    paginate sampleDb ⟨none, none⟩ 2 4 none =
      some (sampleDb.servers.filter
        (fun r => filterCond ⟨none, none⟩ r (pkgFor sampleDb.pkgs r.name))) :=
  (paginate_spec sampleDb ⟨none, none⟩ 2 (by decide) (by decide) (by decide)
    (by decide)).1 4 (by decide)

/-- C3 counterexample. On a table whose versions contain `:` (which
record validation admits), the claim as stated fails: the first page of
size 1 returns the row `("com.example/srv", "1:0")` and serves the cursor
`com.example/srv:1:0`, which decodes to `("com.example/srv", "1")`, so the
second page returns the very row the cursor was built from again
(duplicate delivery), and chaining with fuel `rows + 1` (sufficient for
every colon-free table) never completes the traversal. -/
theorem paginate_colon_counterexample :
    List.Pairwise (fun a b => keyLt (rowKey a) (rowKey b)) colonDb.servers ∧
    (1 : Nat) ≤ 1 ∧ (1 : Nat) ≤ 100 ∧
    (listPage colonDb ⟨none, none⟩ none 1).rows =
      [mkRow "com.example/srv" "1:0" 1 .draft] ∧
    (listPage colonDb ⟨none, none⟩ none 1).nextCursor = some "com.example/srv:1:0" ∧
    decodeCursor "com.example/srv:1:0" = some ("com.example/srv", "1") ∧
    (listPage colonDb ⟨none, none⟩ (some ("com.example/srv", "1")) 1).rows =
      [mkRow "com.example/srv" "1:0" 1 .draft] ∧
    paginate colonDb ⟨none, none⟩ 1 (colonDb.servers.length + 1) none = none := by
  decide

/-- A colon-free but percent-bearing stored version also breaks real
pagination, which is why the amendment excludes `%` alongside `:`: the
handler's `decodeURIComponent` runs before the split, so a version with
an escape sequence (`"1%3A0"`) is rewritten into a colon-bearing string
and the served cursor redelivers the very row it was built from, while a
version with an incomplete escape (`"100%"`) makes the next request throw
`URIError` and fail, so chaining never completes. -/
theorem percent_version_breaks_pagination :
    (listPage ⟨[mkRow "com.example/srv" "1%3A0" 1 .draft,
        mkRow "com.example/srv" "1%3A1" 2 .draft], []⟩
      ⟨none, none⟩ none 1).nextCursor = some "com.example/srv:1%3A0" ∧
    decodeURIComponent "com.example/srv:1%3A0" = some "com.example/srv:1:0" ∧
    listServers ⟨[mkRow "com.example/srv" "1%3A0" 1 .draft,
        mkRow "com.example/srv" "1%3A1" 2 .draft], []⟩
      ⟨none, none⟩ (some "com.example/srv:1%3A0") 1 =
      some ⟨[mkRow "com.example/srv" "1%3A0" 1 .draft], 1,
        some "com.example/srv:1%3A0"⟩ ∧
    (listPage ⟨[mkRow "com.example/srv" "100%" 1 .draft,
        mkRow "com.example/srv" "200%" 2 .draft], []⟩
      ⟨none, none⟩ none 1).nextCursor = some "com.example/srv:100%" ∧
    decodeURIComponent "com.example/srv:100%" = none ∧
    listServers ⟨[mkRow "com.example/srv" "100%" 1 .draft,
        mkRow "com.example/srv" "200%" 2 .draft], []⟩
      ⟨none, none⟩ (some "com.example/srv:100%") 1 = none := by
  decide
